import Mathlib

/-!
Shallow embedding of the selector-driven DOM editing core of `html_editor`
(`src/operation/edit.rs`, `src/error.rs`) and proofs of its specified
properties.  `Node` / `Element` mirror the document model; the five
`Editable` operations are translated as pure functions: in-place mutation
of a `Vec<Node>` becomes a function `List Node → List Node`, and the
fallible `replace_with` returns the mutated list together with the error
that escaped (`none` when the call returned `Ok`).
-/

/-- The document node kinds: `Doctype`, `Comment`, `Text`, and `Element`
(name, attributes, ordered children). -/
inductive Node : Type where
  | Doctype (text : String) : Node
  | Comment (text : String) : Node
  | Text (text : String) : Node
  | Element (name : String) (attrs : List (String × String)) (children : List Node) : Node

/-- The `Element` struct: a named node with ordered attributes and children. -/
structure Element : Type where
  name : String
  attrs : List (String × String)
  children : List Node

/-- View an `Element` as a `Node` (the `Node::Element` case). -/
def Element.toNode (el : Element) : Node :=
  Node.Element el.name el.attrs el.children

/-- A `Selector` is specified only through its interface: a pure predicate
over a single `Element`. -/
abbrev Selector : Type := Element → Bool

/-- The `Selector::matches` interface method. -/
def Selector.matches (sel : Selector) (el : Element) : Bool :=
  sel el

/-- The error type of `src/error.rs`: `pub struct Error;`, a fieldless unit
struct. -/
structure Error : Type

/-- The `Display` implementation for `Error`: a fixed message, independent
of the value. -/
def Error.message (_ : Error) : String :=
  "Unexpected error in HTML Editor"

/-- The `ErrorDetail` struct of `src/error.rs`: call-site line, column and
file captured at construction time.  It is a separate type from `Error`
and no operation in `edit.rs` produces or returns it. -/
structure ErrorDetail : Type where
  line : Nat
  column : Nat
  file : String

/-- Models Rust `str::trim`: the string with leading and trailing
whitespace removed.  (Written over the character list so that it
evaluates inside the kernel.) -/
def strTrim (s : String) : String :=
  ⟨((s.data.dropWhile Char.isWhitespace).reverse.dropWhile Char.isWhitespace).reverse⟩

/-- The retain test of `Vec<Node>::trim`: keep doctypes and elements, drop
comments, keep a text node exactly when its trimmed content is nonempty
(`!text.trim().is_empty()`). -/
def trimKeep : Node → Bool
  | Node.Doctype _ => true
  | Node.Comment _ => false
  | Node.Text text => !((strTrim text).data.isEmpty)
  | Node.Element _ _ _ => true

/-- `Vec<Node>::trim`: retain the nodes passing `trimKeep` at this level,
then trim the children of each surviving element.  (The Rust code filters
the whole level first and then recurses into the survivors; since the
retain decision of a node depends on that node alone, filtering and
recursing node by node computes the same list.) -/
def Nodes.trim : List Node → List Node
  | [] => []
  | n :: rest =>
    if trimKeep n then
      (match n with
       | Node.Element name attrs children => Node.Element name attrs (Nodes.trim children)
       | x => x) :: Nodes.trim rest
    else
      Nodes.trim rest

/-- `Element::trim`: trim the children, leaving name and attrs alone. -/
def Element.trim (el : Element) : Element :=
  ⟨el.name, el.attrs, Nodes.trim el.children⟩

/-- `Vec<Node>::insert_to`: for each element at this level, first recurse
into its children, then test the element against a copy of itself with
`children` replaced by the empty vector, and on a match push a clone of
`target` onto the (already recursed) children. -/
def Nodes.insert_to (sel : Selector) (target : Node) : List Node → List Node
  | [] => []
  | Node.Element name attrs children :: rest =>
    Node.Element name attrs
      (if sel.matches ⟨name, attrs, []⟩ then
        Nodes.insert_to sel target children ++ [target]
      else
        Nodes.insert_to sel target children) :: Nodes.insert_to sel target rest
  | x :: rest => x :: Nodes.insert_to sel target rest

/-- `Element::insert_to`: recurse into the children, then test the receiver
itself — note that the Rust code tests `selector.matches(self)` on the
receiver with its true, already-recursed children, not on a
children-stripped copy — and on a match push `target`. -/
def Element.insert_to (el : Element) (sel : Selector) (target : Node) : Element :=
  if sel.matches ⟨el.name, el.attrs, Nodes.insert_to sel target el.children⟩ then
    ⟨el.name, el.attrs, Nodes.insert_to sel target el.children ++ [target]⟩
  else
    ⟨el.name, el.attrs, Nodes.insert_to sel target el.children⟩

/-- `Vec<Node>::remove_by`: retain every non-element node and every element
whose children-stripped copy does not match `selector`, then recurse into
the children of each surviving element. -/
def Nodes.remove_by (sel : Selector) : List Node → List Node
  | [] => []
  | Node.Element name attrs children :: rest =>
    if sel.matches ⟨name, attrs, []⟩ then
      Nodes.remove_by sel rest
    else
      Node.Element name attrs (Nodes.remove_by sel children) :: Nodes.remove_by sel rest
  | x :: rest => x :: Nodes.remove_by sel rest

/-- `Element::remove_by`: remove from the children only; the receiver is
not a candidate. -/
def Element.remove_by (el : Element) (sel : Selector) : Element :=
  ⟨el.name, el.attrs, Nodes.remove_by sel el.children⟩

/-- `Vec<Node>::replace_with`.  The transform is a pure function
`Element → Result<Node, Error>`.  For each node at this level: an element
whose true value matches is overwritten by `f`'s result, and an `Err`
from `f` aborts the loop immediately (nodes to the right stay untouched);
an element that does not match has its children replaced recursively, and
the result of that nested call is discarded while its mutation of the
children is kept.  The returned pair is the final state of the vector
together with the error that escaped this call (`none` for `Ok`). -/
def Nodes.replace_with (sel : Selector) (f : Element → Except Error Node) :
    List Node → List Node × Option Error
  | [] => ([], none)
  | Node.Element name attrs children :: rest =>
    if sel.matches ⟨name, attrs, children⟩ then
      match f ⟨name, attrs, children⟩ with
      | Except.ok newNode =>
        (newNode :: (Nodes.replace_with sel f rest).1, (Nodes.replace_with sel f rest).2)
      | Except.error e => (Node.Element name attrs children :: rest, some e)
    else
      (Node.Element name attrs (Nodes.replace_with sel f children).1 ::
          (Nodes.replace_with sel f rest).1,
        (Nodes.replace_with sel f rest).2)
  | x :: rest => (x :: (Nodes.replace_with sel f rest).1, (Nodes.replace_with sel f rest).2)

/-- `Element::replace_with`: replace within the children (the receiver is
not a candidate) and propagate the children call's error with `?`. -/
def Element.replace_with (el : Element) (sel : Selector)
    (f : Element → Except Error Node) : Element × Option Error :=
  (⟨el.name, el.attrs, (Nodes.replace_with sel f el.children).1⟩,
    (Nodes.replace_with sel f el.children).2)

/-- The visitor of `execute_for`, modelled as a pure update of the visited
element's name and attrs.  (The Rust visitor receives `&mut Element`; the
spec's precondition in §9 forbids it from detaching the node under
traversal, and a visitor that grows the children under the traversal
could make the Rust recursion itself non-terminating, so the model lets
the visitor read the whole element but rewrite only name and attrs.) -/
abbrev Visitor : Type := Element → String × List (String × String)

/-- `nodes_execute_for_internal`: traverse every node at this level,
entering `element_execute_for_internal` on each element.  The second
component of the result is the trace of elements passed to the visitor,
in visit order. -/
def Nodes.execute_for (sel : Selector) (f : Visitor) :
    List Node → List Node × List Element
  | [] => ([], [])
  | Node.Element name attrs children :: rest =>
    if sel.matches ⟨name, attrs, children⟩ then
      (Node.Element (f ⟨name, attrs, children⟩).1 (f ⟨name, attrs, children⟩).2
          (Nodes.execute_for sel f children).1 :: (Nodes.execute_for sel f rest).1,
        (⟨name, attrs, children⟩ :: (Nodes.execute_for sel f children).2) ++
          (Nodes.execute_for sel f rest).2)
    else
      (Node.Element name attrs (Nodes.execute_for sel f children).1 ::
          (Nodes.execute_for sel f rest).1,
        (Nodes.execute_for sel f children).2 ++ (Nodes.execute_for sel f rest).2)
  | x :: rest =>
    (x :: (Nodes.execute_for sel f rest).1, (Nodes.execute_for sel f rest).2)

/-- `element_execute_for_internal` (the body of `Element::execute_for`):
test the receiver itself on its true value, visit it on a match, then
descend into the children. -/
def Element.execute_for (el : Element) (sel : Selector) (f : Visitor) :
    Element × List Element :=
  if sel.matches el then
    (⟨(f el).1, (f el).2, (Nodes.execute_for sel f el.children).1⟩,
      el :: (Nodes.execute_for sel f el.children).2)
  else
    (⟨el.name, el.attrs, (Nodes.execute_for sel f el.children).1⟩,
      (Nodes.execute_for sel f el.children).2)

/-! Specification-side observations of a tree, used to state the claimed
properties without restating the operations themselves. -/

/-- The stored content of every `Text` node of the forest, at every depth,
in document order. -/
def collectTexts : List Node → List String
  | [] => []
  | Node.Text t :: rest => t :: collectTexts rest
  | Node.Element _ _ children :: rest => collectTexts children ++ collectTexts rest
  | _ :: rest => collectTexts rest

/-- The forest with every `Comment` and `Text` node erased at every depth:
what remains is exactly the `Doctype` / `Element` structure (names, attrs,
order, nesting). -/
def skeleton : List Node → List Node
  | [] => []
  | Node.Doctype s :: rest => Node.Doctype s :: skeleton rest
  | Node.Element name attrs children :: rest =>
    Node.Element name attrs (skeleton children) :: skeleton rest
  | _ :: rest => skeleton rest

/-- No `Comment` node occurs anywhere in the forest. -/
def noComments : List Node → Bool
  | [] => true
  | Node.Comment _ :: _ => false
  | Node.Element _ _ children :: rest => noComments children && noComments rest
  | _ :: rest => noComments rest

/-- Total number of nodes in the forest, subtrees included. -/
def nodesSize : List Node → Nat
  | [] => 0
  | Node.Element _ _ children :: rest => 1 + nodesSize children + nodesSize rest
  | _ :: rest => 1 + nodesSize rest

/-- Number of elements of the forest, at every depth, whose shape (name and
attrs, children replaced by the empty list) matches `sel`. -/
def shapeCount (sel : Selector) : List Node → Nat
  | [] => 0
  | Node.Element name attrs children :: rest =>
    (if sel.matches ⟨name, attrs, []⟩ then 1 else 0) +
      shapeCount sel children + shapeCount sel rest
  | _ :: rest => shapeCount sel rest

/-- No element of the forest, at any depth, matches `sel` on its shape
(name and attrs with empty children). -/
def noShapeMatch (sel : Selector) : List Node → Bool
  | [] => true
  | Node.Element name attrs children :: rest =>
    !(sel.matches ⟨name, attrs, []⟩) && noShapeMatch sel children && noShapeMatch sel rest
  | _ :: rest => noShapeMatch sel rest

/-- Every element of the forest, at every depth, in pre-order: an element
precedes the elements of its own children, which precede those of its
right siblings. -/
def preorderElems : List Node → List Element
  | [] => []
  | Node.Element name attrs children :: rest =>
    Element.mk name attrs children :: (preorderElems children ++ preorderElems rest)
  | _ :: rest => preorderElems rest

/-- The spec's description of `insert_to` on a forest, as a relation:
a matched-by-shape element keeps its name and attrs and gains the literal
`target` as a new last child after its children are rewritten, a
non-matched element only has its children rewritten, and every other node
is kept verbatim. -/
inductive InsRel (sel : Selector) (target : Node) : List Node → List Node → Prop where
  | nil : InsRel sel target [] []
  | el_match (name attrs children children' rest rest') :
      sel.matches ⟨name, attrs, []⟩ = true →
      InsRel sel target children children' →
      InsRel sel target rest rest' →
      InsRel sel target (Node.Element name attrs children :: rest)
        (Node.Element name attrs (children' ++ [target]) :: rest')
  | el_skip (name attrs children children' rest rest') :
      sel.matches ⟨name, attrs, []⟩ = false →
      InsRel sel target children children' →
      InsRel sel target rest rest' →
      InsRel sel target (Node.Element name attrs children :: rest)
        (Node.Element name attrs children' :: rest')
  | doctype (s rest rest') :
      InsRel sel target rest rest' →
      InsRel sel target (Node.Doctype s :: rest) (Node.Doctype s :: rest')
  | comment (s rest rest') :
      InsRel sel target rest rest' →
      InsRel sel target (Node.Comment s :: rest) (Node.Comment s :: rest')
  | text (s rest rest') :
      InsRel sel target rest rest' →
      InsRel sel target (Node.Text s :: rest) (Node.Text s :: rest')

/-- The spec's description of `remove_by` on a forest, as a relation: a
matched-by-shape element disappears together with its whole subtree
(its children are not inspected), a surviving element keeps name and
attrs and has its children filtered recursively, and non-element nodes
are always kept. -/
inductive RemRel (sel : Selector) : List Node → List Node → Prop where
  | nil : RemRel sel [] []
  | el_drop (name attrs children rest rest') :
      sel.matches ⟨name, attrs, []⟩ = true →
      RemRel sel rest rest' →
      RemRel sel (Node.Element name attrs children :: rest) rest'
  | el_keep (name attrs children children' rest rest') :
      sel.matches ⟨name, attrs, []⟩ = false →
      RemRel sel children children' →
      RemRel sel rest rest' →
      RemRel sel (Node.Element name attrs children :: rest)
        (Node.Element name attrs children' :: rest')
  | doctype (s rest rest') :
      RemRel sel rest rest' →
      RemRel sel (Node.Doctype s :: rest) (Node.Doctype s :: rest')
  | comment (s rest rest') :
      RemRel sel rest rest' →
      RemRel sel (Node.Comment s :: rest) (Node.Comment s :: rest')
  | text (s rest rest') :
      RemRel sel rest rest' →
      RemRel sel (Node.Text s :: rest) (Node.Text s :: rest')

/-- A node on which the `replace_with` scan of its level aborts: an element
whose true value matches `sel` and on which the transform fails. -/
def nodeFails (sel : Selector) (f : Element → Except Error Node) : Node → Bool
  | Node.Element name attrs children =>
    sel.matches ⟨name, attrs, children⟩ &&
      (match f ⟨name, attrs, children⟩ with
       | Except.ok _ => false
       | Except.error _ => true)
  | _ => false

/-- What one successful `replace_with` step does to one node of the scanned
level: a matching element becomes the transform's result, a non-matching
element has its children replaced recursively (the nested error being
discarded), any other node is untouched. -/
def procNode (sel : Selector) (f : Element → Except Error Node) : Node → Node
  | Node.Element name attrs children =>
    if sel.matches ⟨name, attrs, children⟩ then
      match f ⟨name, attrs, children⟩ with
      | Except.ok newNode => newNode
      | Except.error _ => Node.Element name attrs children
    else
      Node.Element name attrs (Nodes.replace_with sel f children).1
  | x => x

/-- Index of the first node of the level on which the scan aborts
(`length` when the whole level is processed). -/
def firstFail (sel : Selector) (f : Element → Except Error Node) : List Node → Nat
  | [] => 0
  | n :: rest => if nodeFails sel f n then 0 else firstFail sel f rest + 1

/-- A transform failure available at the scanned level itself: some element
of the list (not of a subtree) matches on its true value and the
transform fails on it. -/
def levelFailure (sel : Selector) (f : Element → Except Error Node)
    (nodes : List Node) : Prop :=
  ∃ name attrs children, Node.Element name attrs children ∈ nodes ∧
    sel.matches ⟨name, attrs, children⟩ = true ∧
    ∃ e, f ⟨name, attrs, children⟩ = Except.error e

/-- Induction principle for forests that provides the inductive hypothesis
both for the tail of the list and for the children of a leading element. -/
theorem nodeList_ind (P : List Node → Prop)
    (hnil : P [])
    (hdoc : ∀ s rest, P rest → P (Node.Doctype s :: rest))
    (hcom : ∀ s rest, P rest → P (Node.Comment s :: rest))
    (htxt : ∀ s rest, P rest → P (Node.Text s :: rest))
    (hel : ∀ name attrs children rest, P children → P rest →
      P (Node.Element name attrs children :: rest)) :
    ∀ nodes, P nodes
  | [] => hnil
  | Node.Doctype s :: rest => hdoc s rest (nodeList_ind P hnil hdoc hcom htxt hel rest)
  | Node.Comment s :: rest => hcom s rest (nodeList_ind P hnil hdoc hcom htxt hel rest)
  | Node.Text s :: rest => htxt s rest (nodeList_ind P hnil hdoc hcom htxt hel rest)
  | Node.Element name attrs children :: rest =>
    hel name attrs children rest (nodeList_ind P hnil hdoc hcom htxt hel children)
      (nodeList_ind P hnil hdoc hcom htxt hel rest)

/-! Helper lemmas about `trim`. -/

lemma trim_collectTexts (nodes : List Node) :
    collectTexts (Nodes.trim nodes) =
      (collectTexts nodes).filter (fun t => !((strTrim t).data.isEmpty)) := by
  induction nodes using nodeList_ind with
  | hnil => simp [Nodes.trim, collectTexts]
  | hdoc s rest ih => simpa [Nodes.trim, trimKeep, collectTexts] using ih
  | hcom s rest ih => simpa [Nodes.trim, trimKeep, collectTexts] using ih
  | htxt s rest ih =>
    cases h : (strTrim s).data.isEmpty <;>
      simp [Nodes.trim, trimKeep, collectTexts, h, ih]
  | hel name attrs children rest ihc ihr =>
    simp [Nodes.trim, trimKeep, collectTexts, ihc, ihr]

lemma trim_skeleton (nodes : List Node) :
    skeleton (Nodes.trim nodes) = skeleton nodes := by
  induction nodes using nodeList_ind with
  | hnil => simp [Nodes.trim]
  | hdoc s rest ih => simpa [Nodes.trim, trimKeep, skeleton] using ih
  | hcom s rest ih => simpa [Nodes.trim, trimKeep, skeleton] using ih
  | htxt s rest ih =>
    cases h : (strTrim s).data.isEmpty <;>
      simp [Nodes.trim, trimKeep, skeleton, h, ih]
  | hel name attrs children rest ihc ihr =>
    simp [Nodes.trim, trimKeep, skeleton, ihc, ihr]

lemma trim_noComments (nodes : List Node) :
    noComments (Nodes.trim nodes) = true := by
  induction nodes using nodeList_ind with
  | hnil => simp [Nodes.trim, noComments]
  | hdoc s rest ih => simpa [Nodes.trim, trimKeep, noComments] using ih
  | hcom s rest ih => simpa [Nodes.trim, trimKeep, noComments] using ih
  | htxt s rest ih =>
    cases h : (strTrim s).data.isEmpty <;>
      simp [Nodes.trim, trimKeep, noComments, h, ih]
  | hel name attrs children rest ihc ihr =>
    simp [Nodes.trim, trimKeep, noComments, ihc, ihr]

/-- C4 — `trim` removes exactly the comments and the whitespace-only texts,
at every depth: the surviving texts are exactly the original texts whose
trimmed content is nonempty, stored string untouched and in order; the
`Doctype`/`Element` structure (names, attrs, order, nesting) is preserved
unchanged; and no comment survives at any depth. -/
theorem trim_removes_exactly (nodes : List Node) :
    collectTexts (Nodes.trim nodes) =
        (collectTexts nodes).filter (fun t => !((strTrim t).data.isEmpty)) ∧
      skeleton (Nodes.trim nodes) = skeleton nodes ∧
      noComments (Nodes.trim nodes) = true :=
  ⟨trim_collectTexts nodes, trim_skeleton nodes, trim_noComments nodes⟩

/-- C5 — `trim` is idempotent, on a forest and on an `Element` receiver. -/
theorem trim_idempotent :
    (∀ nodes : List Node, Nodes.trim (Nodes.trim nodes) = Nodes.trim nodes) ∧
      (∀ el : Element, (el.trim).trim = el.trim) := by
  have h : ∀ nodes : List Node, Nodes.trim (Nodes.trim nodes) = Nodes.trim nodes := by
    intro nodes
    induction nodes using nodeList_ind with
    | hnil => simp [Nodes.trim]
    | hdoc s rest ih => simp [Nodes.trim, trimKeep, ih]
    | hcom s rest ih => simp [Nodes.trim, trimKeep, ih]
    | htxt s rest ih =>
      cases hs : (strTrim s).data.isEmpty <;>
        simp [Nodes.trim, trimKeep, hs, ih]
    | hel name attrs children rest ihc ihr =>
      simp [Nodes.trim, trimKeep, ihc, ihr]
  exact ⟨h, fun el => by simp [Element.trim, h el.children]⟩

/-! Helper lemmas about `remove_by` and `execute_for`. -/

lemma remove_by_RemRel (sel : Selector) (nodes : List Node) :
    RemRel sel nodes (Nodes.remove_by sel nodes) := by
  induction nodes using nodeList_ind with
  | hnil => simpa [Nodes.remove_by] using (RemRel.nil : RemRel sel [] [])
  | hdoc s rest ih => simpa [Nodes.remove_by] using RemRel.doctype s rest _ ih
  | hcom s rest ih => simpa [Nodes.remove_by] using RemRel.comment s rest _ ih
  | htxt s rest ih => simpa [Nodes.remove_by] using RemRel.text s rest _ ih
  | hel name attrs children rest ihc ihr =>
    cases h : sel.matches ⟨name, attrs, []⟩ with
    | true =>
      simpa [Nodes.remove_by, h] using RemRel.el_drop name attrs children rest _ h ihr
    | false =>
      simpa [Nodes.remove_by, h] using
        RemRel.el_keep name attrs children _ rest _ h ihc ihr

lemma remove_by_noShapeMatch (sel : Selector) (nodes : List Node) :
    noShapeMatch sel (Nodes.remove_by sel nodes) = true := by
  induction nodes using nodeList_ind with
  | hnil => simp [Nodes.remove_by, noShapeMatch]
  | hdoc s rest ih => simpa [Nodes.remove_by, noShapeMatch] using ih
  | hcom s rest ih => simpa [Nodes.remove_by, noShapeMatch] using ih
  | htxt s rest ih => simpa [Nodes.remove_by, noShapeMatch] using ih
  | hel name attrs children rest ihc ihr =>
    cases h : sel.matches ⟨name, attrs, []⟩ with
    | true => simpa [Nodes.remove_by, h] using ihr
    | false => simp [Nodes.remove_by, noShapeMatch, h, ihc, ihr]

/-- C6 — `remove_by` totality: the result is the spec's subtree erasure of
the input (matched-by-shape elements disappear with their entire subtrees,
their children never being inspected; surviving elements keep name and
attrs and are filtered recursively; `Doctype`/`Comment`/`Text` nodes are
never removed at the level that holds them, whatever the selector), and no
surviving element at any depth matches the selector on its shape. -/
theorem remove_by_totality (sel : Selector) (nodes : List Node) :
    RemRel sel nodes (Nodes.remove_by sel nodes) ∧
      noShapeMatch sel (Nodes.remove_by sel nodes) = true :=
  ⟨remove_by_RemRel sel nodes, remove_by_noShapeMatch sel nodes⟩

lemma execute_for_trace (sel : Selector) (f : Visitor) (nodes : List Node) :
    (Nodes.execute_for sel f nodes).2 =
      (preorderElems nodes).filter (fun e => sel.matches e) := by
  induction nodes using nodeList_ind with
  | hnil => simp [Nodes.execute_for, preorderElems]
  | hdoc s rest ih => simpa [Nodes.execute_for, preorderElems] using ih
  | hcom s rest ih => simpa [Nodes.execute_for, preorderElems] using ih
  | htxt s rest ih => simpa [Nodes.execute_for, preorderElems] using ih
  | hel name attrs children rest ihc ihr =>
    cases h : sel.matches ⟨name, attrs, children⟩ with
    | true => simp [Nodes.execute_for, preorderElems, h, ihc, ihr, List.filter_append]
    | false => simp [Nodes.execute_for, preorderElems, h, ihc, ihr, List.filter_append]

/-- C7 — `execute_for` full coverage: on an `Element` receiver the visitor
is invoked exactly on the elements of the subtree (receiver included)
whose true value satisfies the selector, once each, in pre-order — each
matched element before the elements of its children, and descent reaching
every element whatever its own match result; the trace on a forest
receiver is the same pre-order filter.  (The trace lists the elements in
visit order, so an element matched once appears exactly once.) -/
theorem execute_for_coverage (sel : Selector) (f : Visitor) (el : Element)
    (nodes : List Node) :
    (el.execute_for sel f).2 =
        (el :: preorderElems el.children).filter (fun e => sel.matches e) ∧
      (Nodes.execute_for sel f nodes).2 =
        (preorderElems nodes).filter (fun e => sel.matches e) := by
  refine ⟨?_, execute_for_trace sel f nodes⟩
  cases h : sel.matches el with
  | true => simp [Element.execute_for, h, execute_for_trace]
  | false => simp [Element.execute_for, h, execute_for_trace]

/-! Helper lemmas about `insert_to`. -/

lemma nodesSize_append (xs ys : List Node) :
    nodesSize (xs ++ ys) = nodesSize xs + nodesSize ys := by
  induction xs with
  | nil => simp [nodesSize]
  | cons n rest ih => cases n <;> simp [nodesSize, ih] <;> omega

lemma insert_to_InsRel (sel : Selector) (target : Node) (nodes : List Node) :
    InsRel sel target nodes (Nodes.insert_to sel target nodes) := by
  induction nodes using nodeList_ind with
  | hnil =>
    simpa [Nodes.insert_to] using (InsRel.nil : InsRel sel target [] [])
  | hdoc s rest ih => simpa [Nodes.insert_to] using InsRel.doctype s rest _ ih
  | hcom s rest ih => simpa [Nodes.insert_to] using InsRel.comment s rest _ ih
  | htxt s rest ih => simpa [Nodes.insert_to] using InsRel.text s rest _ ih
  | hel name attrs children rest ihc ihr =>
    cases h : sel.matches ⟨name, attrs, []⟩ with
    | true =>
      simpa [Nodes.insert_to, h] using
        InsRel.el_match name attrs children _ rest _ h ihc ihr
    | false =>
      simpa [Nodes.insert_to, h] using
        InsRel.el_skip name attrs children _ rest _ h ihc ihr

lemma insert_to_size (sel : Selector) (target : Node) (nodes : List Node) :
    nodesSize (Nodes.insert_to sel target nodes) =
      nodesSize nodes + shapeCount sel nodes * nodesSize [target] := by
  induction nodes using nodeList_ind with
  | hnil => simp [Nodes.insert_to, nodesSize, shapeCount]
  | hdoc s rest ih =>
    simp [Nodes.insert_to, nodesSize, shapeCount, ih]
    ring
  | hcom s rest ih =>
    simp [Nodes.insert_to, nodesSize, shapeCount, ih]
    ring
  | htxt s rest ih =>
    simp [Nodes.insert_to, nodesSize, shapeCount, ih]
    ring
  | hel name attrs children rest ihc ihr =>
    cases h : sel.matches ⟨name, attrs, []⟩ with
    | true =>
      simp [Nodes.insert_to, nodesSize, shapeCount, h, ihc, ihr, nodesSize_append]
      ring
    | false =>
      simp [Nodes.insert_to, nodesSize, shapeCount, h, ihc, ihr]
      ring

/-- C8 — `insert_to` multiplicity and frame: on a forest, the result is the
spec's insertion relation applied to the input — every element matched by
shape (children disregarded) keeps its name and attrs and gains exactly
one new last child equal to the inserted value itself (so an inserted copy
is never recursed into, even if it matches), non-matched elements change
only by the recursion into their children, and all other nodes are kept
verbatim — and for a selector matching `k` elements of the tree by shape
the total node count grows by exactly `k` times the size of the inserted
subtree.  (Copies are independent by value semantics: each append
contributes its own `target` value.) -/
theorem insert_to_multiplicity (sel : Selector) (target : Node) (nodes : List Node) :
    InsRel sel target nodes (Nodes.insert_to sel target nodes) ∧
      nodesSize (Nodes.insert_to sel target nodes) =
        nodesSize nodes + shapeCount sel nodes * nodesSize [target] :=
  ⟨insert_to_InsRel sel target nodes, insert_to_size sel target nodes⟩

/-! Concrete fixtures for counterexamples and witnesses. -/

/-- A legal selector value (`matches : Element → bool`) that is sensitive
to children: it matches exactly the elements with no children. -/
def selLeaf : Selector := fun el => el.children.isEmpty

/-- A `div` element holding one text child. -/
def elemDivText : Element := ⟨"div", [], [Node.Text "x"]⟩

/-- A node to insert. -/
def targetNew : Node := Node.Comment "new"

/-- C1 counterexample — the receiver of `Element::insert_to` is *not*
tested on a children-stripped copy: with a selector matching exactly the
childless elements, the receiver `<div>x</div>` matches on its
children-stripped shape, yet no copy of the target is appended — its
children stay `[Text "x"]` instead of the claimed
`[Text "x", target]` — because the code tests the receiver with its true,
already-recursed children. -/
theorem insert_to_receiver_counterexample :
    Selector.matches selLeaf ⟨elemDivText.name, elemDivText.attrs, []⟩ = true ∧
      (elemDivText.insert_to selLeaf targetNew).children = [Node.Text "x"] ∧
      (elemDivText.insert_to selLeaf targetNew).children ≠
        Nodes.insert_to selLeaf targetNew elemDivText.children ++ [targetNew] := by
  refine ⟨rfl, ?_, ?_⟩
  · simp [Element.insert_to, Nodes.insert_to, selLeaf, Selector.matches, elemDivText,
      targetNew]
  · simp [Element.insert_to, Nodes.insert_to, selLeaf, Selector.matches, elemDivText,
      targetNew]

/-- C1 amended — `insert_to` appends a copy of the target as the last
child of every element whose shape (name and attrs, children disregarded)
matches the selector; every element reached through a node list is tested
on a children-stripped copy, but the `Element` receiver itself is tested
on its true, already-recursed children.  Whenever the selector is
insensitive to children (the spec's selector contract), the receiver's
test therefore coincides with the shape test, and the operation behaves
exactly as originally claimed. -/
theorem insert_to_receiver_amended (sel : Selector) (target : Node) (el : Element)
    (hsel : ∀ name attrs children children',
      sel.matches ⟨name, attrs, children⟩ = sel.matches ⟨name, attrs, children'⟩) :
    (el.insert_to sel target =
        if sel.matches ⟨el.name, el.attrs, []⟩ then
          ⟨el.name, el.attrs, Nodes.insert_to sel target el.children ++ [target]⟩
        else
          ⟨el.name, el.attrs, Nodes.insert_to sel target el.children⟩) ∧
      InsRel sel target el.children (Nodes.insert_to sel target el.children) := by
  refine ⟨?_, insert_to_InsRel sel target el.children⟩
  have h : sel.matches ⟨el.name, el.attrs, Nodes.insert_to sel target el.children⟩ =
      sel.matches ⟨el.name, el.attrs, []⟩ :=
    hsel el.name el.attrs (Nodes.insert_to sel target el.children) []
  rw [Element.insert_to, h]

/-- A children-insensitive selector: matches the elements named `div`. -/
def selDivName : Selector := fun el => el.name == "div"

/-- An empty `div` element. -/
def elemDivEmpty : Element := ⟨"div", [], []⟩

/-- Witness for the amended C1 at a concrete children-insensitive selector,
receiver and target. -/
theorem insert_to_receiver_amended_witness :
    (elemDivEmpty.insert_to selDivName targetNew =
        if Selector.matches selDivName ⟨elemDivEmpty.name, elemDivEmpty.attrs, []⟩ then
          ⟨elemDivEmpty.name, elemDivEmpty.attrs,
            Nodes.insert_to selDivName targetNew elemDivEmpty.children ++ [targetNew]⟩
        else
          ⟨elemDivEmpty.name, elemDivEmpty.attrs,
            Nodes.insert_to selDivName targetNew elemDivEmpty.children⟩) ∧
      InsRel selDivName targetNew elemDivEmpty.children
        (Nodes.insert_to selDivName targetNew elemDivEmpty.children) :=
  insert_to_receiver_amended selDivName targetNew elemDivEmpty
    (fun _ _ _ _ => rfl)

/-- C2 — `replace_with` surfaces an error exactly when an element matched
at the level currently being scanned has a failing transform: a failure
arising inside the recursion into a non-matching element's children never
reaches the caller of the outer call (the outer call still returns
success), while a same-level matched failure always does. -/
theorem replace_with_swallows_nested (sel : Selector)
    (f : Element → Except Error Node) (nodes : List Node) :
    ((Nodes.replace_with sel f nodes).2.isSome = true ↔ levelFailure sel f nodes) := by
  induction nodes with
  | nil => simp [Nodes.replace_with, levelFailure]
  | cons n rest ih =>
    cases n with
    | Doctype s =>
      simpa [Nodes.replace_with, levelFailure, List.mem_cons] using ih
    | Comment s =>
      simpa [Nodes.replace_with, levelFailure, List.mem_cons] using ih
    | Text s =>
      simpa [Nodes.replace_with, levelFailure, List.mem_cons] using ih
    | Element name attrs children =>
      cases h : sel.matches ⟨name, attrs, children⟩ with
      | false =>
        rw [levelFailure] at ih ⊢
        simp only [Nodes.replace_with, h]
        simp only [List.mem_cons, Node.Element.injEq]
        constructor
        · intro hs
          obtain ⟨n', a', c', hmem, hmatch, e, hf⟩ := ih.mp hs
          exact ⟨n', a', c', Or.inr hmem, hmatch, e, hf⟩
        · rintro ⟨n', a', c', hmem, hmatch, e, hf⟩
          rcases hmem with ⟨hn, ha, hc⟩ | hmem
          · subst hn; subst ha; subst hc
            exact absurd hmatch (by simp [h])
          · exact ih.mpr ⟨n', a', c', hmem, hmatch, e, hf⟩
      | true =>
        cases hf : f ⟨name, attrs, children⟩ with
        | ok v =>
          rw [levelFailure] at ih ⊢
          simp only [Nodes.replace_with, h, hf]
          simp only [List.mem_cons, Node.Element.injEq]
          constructor
          · intro hs
            obtain ⟨n', a', c', hmem, hmatch, e, hfe⟩ := ih.mp hs
            exact ⟨n', a', c', Or.inr hmem, hmatch, e, hfe⟩
          · rintro ⟨n', a', c', hmem, hmatch, e, hfe⟩
            rcases hmem with ⟨hn, ha, hc⟩ | hmem
            · subst hn; subst ha; subst hc
              rw [hf] at hfe
              exact absurd hfe (by simp)
            · exact ih.mpr ⟨n', a', c', hmem, hmatch, e, hfe⟩
        | error e =>
          rw [levelFailure]
          constructor
          · intro _
            exact ⟨name, attrs, children, List.mem_cons_self _ _, h, e, hf⟩
          · intro _
            simp [Nodes.replace_with, h, hf]

/-- C3 — `replace_with` single application and abort-on-failure: the level
splits at the first node on which the scan fails (a matched element with a
failing transform).  Every node to the left is processed exactly once —
a matched element is replaced by the transform of the pre-replacement
element, a non-matched one only has its children rewritten — and those
replacements are kept; the failing node itself and every node to its
right are left exactly as they were.  When no node of the level fails,
`firstFail` is the length of the level and the whole level is processed. -/
theorem replace_with_first_failure (sel : Selector)
    (f : Element → Except Error Node) (nodes : List Node) :
    (Nodes.replace_with sel f nodes).1 =
      (nodes.take (firstFail sel f nodes)).map (procNode sel f) ++
        nodes.drop (firstFail sel f nodes) := by
  induction nodes with
  | nil => simp [Nodes.replace_with, firstFail]
  | cons n rest ih =>
    cases n with
    | Doctype s =>
      simp [Nodes.replace_with, firstFail, nodeFails, procNode, ih]
    | Comment s =>
      simp [Nodes.replace_with, firstFail, nodeFails, procNode, ih]
    | Text s =>
      simp [Nodes.replace_with, firstFail, nodeFails, procNode, ih]
    | Element name attrs children =>
      cases h : sel.matches ⟨name, attrs, children⟩ with
      | false =>
        simp [Nodes.replace_with, firstFail, nodeFails, procNode, h, ih]
      | true =>
        cases hf : f ⟨name, attrs, children⟩ with
        | ok v =>
          simp [Nodes.replace_with, firstFail, nodeFails, procNode, h, hf, ih]
        | error e =>
          simp [Nodes.replace_with, firstFail, nodeFails, procNode, h, hf]

/-- C9 counterexample — the error value returned by a failing
`replace_with` is the fieldless unit struct `Error`: all its values are
equal, so it cannot carry any call-site metadata (originating location) —
two failures raised at different call sites are indistinguishable.  (The
location-carrying type in `error.rs` is the separate `ErrorDetail`, which
`replace_with` does not produce.) -/
theorem error_carries_no_location : Subsingleton Error :=
  ⟨fun a b => by cases a; cases b; rfl⟩

/-- C9 amended — the error value produced by a failing `replace_with`
carries no data at all: not a structured error kind and not call-site
metadata either (the location-carrying `ErrorDetail` type exists in
`error.rs` but is never the value `replace_with` returns).  Its
human-readable message is the fixed string of the `Display`
implementation, and every error `replace_with` can return is the single
value `Error.mk` — callers can distinguish only failure from success,
never the cause. -/
theorem error_opaque_amended :
    (∀ e₁ e₂ : Error, e₁ = e₂) ∧
      (∀ e : Error, e.message = "Unexpected error in HTML Editor") ∧
      (∀ (sel : Selector) (f : Element → Except Error Node) (nodes : List Node),
        (Nodes.replace_with sel f nodes).2 = none ∨
          (Nodes.replace_with sel f nodes).2 = some ⟨⟩) := by
  refine ⟨fun e₁ e₂ => by cases e₁; cases e₂; rfl, fun e => rfl, fun sel f nodes => ?_⟩
  cases hr : (Nodes.replace_with sel f nodes).2 with
  | none => exact Or.inl rfl
  | some e => exact Or.inr (by cases e; rfl)

/-- C10 — on an `Element` receiver, `remove_by` and `replace_with` never
touch the receiver itself: whatever the selector (in particular one the
receiver matches), the receiver survives with its name and attrs
unchanged and only its descendants are candidates; `execute_for`, by
contrast, does test the receiver on its true value and, when it matches,
the receiver itself is the first element handed to the visitor. -/
theorem element_receiver_immune (sel : Selector) (f : Element → Except Error Node)
    (g : Visitor) (el : Element) :
    (el.remove_by sel).name = el.name ∧
      (el.remove_by sel).attrs = el.attrs ∧
      (el.remove_by sel).children = Nodes.remove_by sel el.children ∧
      (el.replace_with sel f).1.name = el.name ∧
      (el.replace_with sel f).1.attrs = el.attrs ∧
      (el.replace_with sel f).1.children = (Nodes.replace_with sel f el.children).1 ∧
      (sel.matches el = true → (el.execute_for sel g).2.head? = some el) := by
  refine ⟨rfl, rfl, rfl, rfl, rfl, rfl, fun h => ?_⟩
  simp [Element.execute_for, h]

/-- A selector matching every element — in particular any receiver. -/
def selAll : Selector := fun _ => true

/-- A transform succeeding everywhere. -/
def transformOk : Element → Except Error Node := fun el => Except.ok el.toNode

/-- A visitor keeping name and attrs unchanged. -/
def visitorId : Visitor := fun el => (el.name, el.attrs)

/-- A small receiver with an attribute and one child element. -/
def elemBody : Element := ⟨"body", [("k", "v")], [Node.Element "p" [] []]⟩

/-- Witness for C10 at a concrete receiver and the all-matching selector:
the receiver keeps its name and attrs under `remove_by` and
`replace_with` even though it matches, and it is the first element
visited by `execute_for`. -/
theorem element_receiver_immune_witness :
    (elemBody.remove_by selAll).name = "body" ∧
      (elemBody.remove_by selAll).attrs = [("k", "v")] ∧
      (elemBody.replace_with selAll transformOk).1.name = "body" ∧
      (elemBody.execute_for selAll visitorId).2.head? = some elemBody := by
  refine ⟨?_, ?_, ?_, ?_⟩
  · exact (element_receiver_immune selAll transformOk visitorId elemBody).1
  · exact (element_receiver_immune selAll transformOk visitorId elemBody).2.1
  · exact (element_receiver_immune selAll transformOk visitorId elemBody).2.2.2.1
  · exact (element_receiver_immune selAll transformOk visitorId elemBody).2.2.2.2.2.2 rfl
